import Mathlib

/-!
Verification of the Kiwi Sports Apparel one-time passcode (OTP) store
(`src/otpStore.js`).

The source file holds two versions of the store: a documented implementation
(`createOtpStore`, lines 22-123) and a compact one later in the same file
(lines 224-260).  Both keep a `Map<passcode, { expiresAt, used }>` and expose
`issue(passcode, durationMs)` and `useOnce(passcode)`, with an internal
`purgeExpired` sweep.

Embedding choices:
- A JS `Map` is modelled as an association list `List (Int × Entry)` in
  insertion order; `Map` keys are unique, so `set` replaces every pair with
  the given key (on unique-key states this is exactly `Map.set`), and
  properties that depend on key uniqueness take a `keysNodup` hypothesis.
- Timestamps and durations are `Int` milliseconds.  Inside one operation the
  source reads `Date.now()` more than once; following the spec's per-call
  clock, each operation takes a single time `t`.
- The JS expression `Number(durationMs) || 0` is modelled by `JSDur`: a
  numeric argument stays itself (`Number(q) || 0 = q` also when `q = 0`), and
  a non-numeric or missing argument, for which `Number` yields `NaN`, becomes
  `0`.  Note that a negative numeric argument is truthy in JS and therefore
  passes through `|| 0` unchanged.
-/

namespace OtpStore

/-- The `MAX_MS` constant of `createOtpStore`: five minutes in milliseconds. -/
def MAX_MS : Int := 5 * 60 * 1000

/-- One stored value of the map: `{ expiresAt: number, used: boolean }`. -/
structure Entry where
  expiresAt : Int
  used : Bool
deriving Repr, DecidableEq

/-- The store: a JS `Map` as an association list in insertion order. -/
abbrev Store := List (Int × Entry)

/-- Keys of a JS `Map` are unique; states reachable through the API keep this. -/
def keysNodup (s : Store) : Prop := (s.map Prod.fst).Nodup

instance (s : Store) : Decidable (keysNodup s) := by
  unfold keysNodup; infer_instance

/-- The `durationMs` argument as JS sees it: a number, or anything that
`Number` turns into `NaN` (non-numeric, `undefined`, missing). -/
inductive JSDur where
  | num : Int → JSDur
  | nan : JSDur
deriving Repr, DecidableEq

/-- The subexpression `Number(durationMs) || 0`. -/
def numberOrZero : JSDur → Int
  | .num q => q
  | .nan => 0

/-- Line 65: `const cappedDuration = Math.min(Number(durationMs) || 0, MAX_MS)`. -/
def cappedDuration (d : JSDur) : Int :=
  min (numberOrZero d) MAX_MS

/-- `store.get(passcode)`: the value of the first (unique) pair with this key. -/
def getEntry (s : Store) (c : Int) : Option Entry :=
  (s.find? (fun kv => kv.1 == c)).map Prod.snd

/-- `store.has(passcode)`. -/
def hasEntry (s : Store) (c : Int) : Bool :=
  s.any (fun kv => kv.1 == c)

/-- `store.set(passcode, e)`: replace the pair with this key in place, or
append a new pair.  (`Map` keys are unique, so replacing every pair with the
key coincides with `Map.set` on valid map states.) -/
def setEntry (s : Store) (c : Int) (e : Entry) : Store :=
  if hasEntry s c then
    s.map (fun kv => if kv.1 == c then (c, e) else kv)
  else
    s ++ [(c, e)]

/-- `store.delete(passcode)`. -/
def deleteEntry (s : Store) (c : Int) : Store :=
  s.filter (fun kv => !(kv.1 == c))

/-- Lines 39-46: `purgeExpired` deletes every entry with
`value.expiresAt <= now || value.used`. -/
def purgeExpired (t : Int) (s : Store) : Store :=
  s.filter (fun kv => !(decide (kv.2.expiresAt ≤ t) || kv.2.used))

/-- Lines 60-79: `issue(passcode, durationMs)` at call time `t`.  Runs the
sweep, caps the duration, tests the prior entry for
`expiresAt > now && !used`, then unconditionally overwrites the entry. -/
def issue (s : Store) (c : Int) (d : JSDur) (t : Int) : Bool × Store :=
  let s1 := purgeExpired t s
  let capped := cappedDuration d
  let existedAndUnexpired :=
    match getEntry s1 c with
    | some e => decide (t < e.expiresAt) && !e.used
    | none => false
  (existedAndUnexpired, setEntry s1 c ⟨t + capped, false⟩)

/-- Lines 92-116: `useOnce(passcode)` at call time `t`.  Runs the sweep; a
missing entry is rejected; an expired or used entry is deleted and rejected;
otherwise the entry is marked used, written back, and the trailing sweep
runs before returning `true`. -/
def useOnce (s : Store) (c : Int) (t : Int) : Bool × Store :=
  let s1 := purgeExpired t s
  match getEntry s1 c with
  | none => (false, s1)
  | some e =>
    if decide (e.expiresAt ≤ t) || e.used then
      (false, deleteEntry s1 c)
    else
      (true, purgeExpired t (setEntry s1 c ⟨e.expiresAt, true⟩))

/-- Lines 235-242: the compact `issue`, which tests only
`store.has(passcode)` after the sweep. -/
def issueCompact (s : Store) (c : Int) (d : JSDur) (t : Int) : Bool × Store :=
  let s1 := purgeExpired t s
  let capped := cappedDuration d
  (hasEntry s1 c, setEntry s1 c ⟨t + capped, false⟩)

/-- Lines 244-257: the compact `useOnce` (textually the same algorithm as the
documented one). -/
def useOnceCompact (s : Store) (c : Int) (t : Int) : Bool × Store :=
  let s1 := purgeExpired t s
  match getEntry s1 c with
  | none => (false, s1)
  | some e =>
    if decide (e.expiresAt ≤ t) || e.used then
      (false, deleteEntry s1 c)
    else
      (true, purgeExpired t (setEntry s1 c ⟨e.expiresAt, true⟩))

/-- A live entry for `c`: present, `expiresAt` strictly above `t`, unconsumed. -/
def liveB (s : Store) (c : Int) (t : Int) : Bool :=
  match getEntry s c with
  | some e => decide (t < e.expiresAt) && !e.used
  | none => false

/-- The entry for `c` is present and consumed. -/
def consumedB (s : Store) (c : Int) : Bool :=
  match getEntry s c with
  | some e => e.used
  | none => false

/-- Every entry of the store is live at `t` (unexpired and unconsumed). -/
def allLiveEntries (t : Int) (s : Store) : Bool :=
  s.all (fun kv => decide (t < kv.2.expiresAt) && !kv.2.used)

/-- No entry of the store has its consumed flag set. -/
def noUsedEntries (s : Store) : Bool :=
  s.all (fun kv => !kv.2.used)

/-- One public call against the store, with the time the call runs at. -/
inductive Op where
  | issueOp (c : Int) (d : JSDur) (t : Int)
  | useOp (c : Int) (t : Int)
deriving Repr, DecidableEq

/-- Run one call of the documented implementation. -/
def step (s : Store) : Op → Bool × Store
  | .issueOp c d t => issue s c d t
  | .useOp c t => useOnce s c t

/-- Run one call of the compact implementation. -/
def stepCompact (s : Store) : Op → Bool × Store
  | .issueOp c d t => issueCompact s c d t
  | .useOp c t => useOnceCompact s c t

/-- Run a call sequence against the documented implementation, collecting the
returned booleans and the final store. -/
def run (s : Store) : List Op → List Bool × Store
  | [] => ([], s)
  | op :: ops =>
    let r := step s op
    let rest := run r.2 ops
    (r.1 :: rest.1, rest.2)

/-- Run a call sequence against the compact implementation. -/
def runCompact (s : Store) : List Op → List Bool × Store
  | [] => ([], s)
  | op :: ops =>
    let r := stepCompact s op
    let rest := runCompact r.2 ops
    (r.1 :: rest.1, rest.2)

/-- The call is not `issue(c, _)`. -/
def noIssueOf (c : Int) : Op → Bool
  | .issueOp k _ _ => !(k == c)
  | .useOp _ _ => true

/-- How many `useOnce(c)` calls of the sequence return `true`. -/
def countUseOnceTrue (s : Store) (c : Int) : List Op → Nat
  | [] => 0
  | op :: ops =>
    let r := step s op
    (match op with
     | .useOp k _ => if k == c && r.1 then 1 else 0
     | .issueOp _ _ _ => 0) + countUseOnceTrue r.2 c ops

/-! Basic lemmas about the map operations. -/

theorem getEntry_nil (c : Int) : getEntry [] c = none := rfl

theorem getEntry_cons (kv : Int × Entry) (s : Store) (c : Int) :
    getEntry (kv :: s) c = if kv.1 = c then some kv.2 else getEntry s c := by
  by_cases h : kv.1 = c <;> simp [getEntry, List.find?_cons, h]

theorem getEntry_of_not_mem_keys (s : Store) (c : Int)
    (h : c ∉ s.map Prod.fst) : getEntry s c = none := by
  induction s with
  | nil => rfl
  | cons kv rest ih =>
    simp only [List.map_cons, List.mem_cons] at h
    push_neg at h
    rw [getEntry_cons, if_neg (Ne.symm h.1), ih h.2]

theorem mem_of_getEntry_eq_some (s : Store) (c : Int) (e : Entry)
    (h : getEntry s c = some e) : (c, e) ∈ s := by
  induction s with
  | nil => simp [getEntry] at h
  | cons kv rest ih =>
    rw [getEntry_cons] at h
    by_cases hk : kv.1 = c
    · rw [if_pos hk] at h
      have hkv : kv = (c, e) := by cases kv; simp_all
      subst hkv
      exact List.mem_cons_self _ _
    · rw [if_neg hk] at h
      exact List.mem_cons_of_mem _ (ih h)

theorem getEntry_filter_of_pred (s : Store) (c : Int) (e : Entry)
    (p : Int × Entry → Bool)
    (h : getEntry s c = some e) (hp : p (c, e) = true) :
    getEntry (s.filter p) c = some e := by
  induction s with
  | nil => simp [getEntry] at h
  | cons kv rest ih =>
    rw [getEntry_cons] at h
    by_cases hk : kv.1 = c
    · rw [if_pos hk] at h
      have hkv : kv = (c, e) := by cases kv; simp_all
      subst hkv
      rw [List.filter_cons, if_pos hp, getEntry_cons, if_pos rfl]
    · rw [if_neg hk] at h
      rw [List.filter_cons]
      by_cases hq : p kv = true
      · rw [if_pos hq, getEntry_cons, if_neg hk]
        exact ih h
      · rw [if_neg hq]
        exact ih h

theorem getEntry_filter_none (s : Store) (c : Int) (p : Int × Entry → Bool)
    (h : getEntry s c = none) : getEntry (s.filter p) c = none := by
  induction s with
  | nil => rfl
  | cons kv rest ih =>
    rw [getEntry_cons] at h
    by_cases hk : kv.1 = c
    · rw [if_pos hk] at h; exact absurd h (by simp)
    · rw [if_neg hk] at h
      rw [List.filter_cons]
      by_cases hq : p kv = true
      · rw [if_pos hq, getEntry_cons, if_neg hk]
        exact ih h
      · rw [if_neg hq]
        exact ih h

theorem getEntry_filter_of_not_pred (s : Store) (c : Int) (e : Entry)
    (p : Int × Entry → Bool) (hnd : keysNodup s)
    (h : getEntry s c = some e) (hp : p (c, e) = false) :
    getEntry (s.filter p) c = none := by
  induction s with
  | nil => simp [getEntry] at h
  | cons kv rest ih =>
    unfold keysNodup at hnd
    rw [List.map_cons, List.nodup_cons] at hnd
    rw [getEntry_cons] at h
    by_cases hk : kv.1 = c
    · rw [if_pos hk] at h
      have hkv : kv = (c, e) := by cases kv; simp_all
      subst hkv
      rw [List.filter_cons, if_neg (by simp [hp])]
      exact getEntry_filter_none _ _ _
        (getEntry_of_not_mem_keys _ _ hnd.1)
    · rw [if_neg hk] at h
      rw [List.filter_cons]
      by_cases hq : p kv = true
      · rw [if_pos hq, getEntry_cons, if_neg hk]
        exact ih hnd.2 h
      · rw [if_neg hq]
        exact ih hnd.2 h

theorem mem_purgeExpired (t : Int) (s : Store) (kv : Int × Entry) :
    kv ∈ purgeExpired t s ↔ kv ∈ s ∧ t < kv.2.expiresAt ∧ kv.2.used = false := by
  unfold purgeExpired
  simp only [List.mem_filter, Bool.not_eq_true', Bool.or_eq_false_iff,
    decide_eq_false_iff_not, not_le]

theorem getEntry_purgeExpired_live (t : Int) (s : Store) (c : Int) (e : Entry)
    (h : getEntry (purgeExpired t s) c = some e) :
    t < e.expiresAt ∧ e.used = false := by
  have hm := mem_of_getEntry_eq_some _ _ _ h
  rw [mem_purgeExpired] at hm
  exact hm.2

theorem hasEntry_eq_isSome (s : Store) (c : Int) :
    hasEntry s c = (getEntry s c).isSome := by
  induction s with
  | nil => rfl
  | cons kv rest ih =>
    rw [getEntry_cons]
    by_cases hk : kv.1 = c
    · simp [hasEntry, hk]
    · rw [if_neg hk, ← ih]
      simp [hasEntry, hk]

theorem getEntry_map_update_self (s : Store) (c : Int) (e : Entry)
    (hh : hasEntry s c = true) :
    getEntry (s.map (fun kv => if kv.1 == c then (c, e) else kv)) c = some e := by
  induction s with
  | nil => simp [hasEntry] at hh
  | cons kv rest ih =>
    rw [List.map_cons]
    by_cases hc : kv.1 = c
    · have h1 : (if (kv.1 == c) = true then (c, e) else kv) = (c, e) := by simp [hc]
      rw [h1, getEntry_cons, if_pos rfl]
    · have h1 : (if (kv.1 == c) = true then (c, e) else kv) = kv := by simp [hc]
      rw [h1, getEntry_cons, if_neg hc]
      exact ih (by simpa [hasEntry, hc] using hh)

theorem getEntry_map_update_ne (s : Store) (c k : Int) (e : Entry) (hk : k ≠ c) :
    getEntry (s.map (fun kv => if kv.1 == c then (c, e) else kv)) k = getEntry s k := by
  induction s with
  | nil => rfl
  | cons kv rest ih =>
    rw [List.map_cons, getEntry_cons]
    by_cases hc : kv.1 = c
    · have h1 : (if (kv.1 == c) = true then (c, e) else kv) = (c, e) := by simp [hc]
      rw [h1, getEntry_cons, if_neg (fun h => hk h.symm),
        if_neg (by rw [hc]; exact fun h => hk h.symm)]
      exact ih
    · have h1 : (if (kv.1 == c) = true then (c, e) else kv) = kv := by simp [hc]
      rw [h1, getEntry_cons]
      by_cases hq : kv.1 = k
      · rw [if_pos hq, if_pos hq]
      · rw [if_neg hq, if_neg hq]
        exact ih

theorem getEntry_append_single_ne (s : Store) (c k : Int) (e : Entry)
    (hk : k ≠ c) : getEntry (s ++ [(c, e)]) k = getEntry s k := by
  induction s with
  | nil =>
    rw [List.nil_append, getEntry_cons, if_neg (fun h => hk h.symm)]
  | cons kv rest ih =>
    rw [List.cons_append, getEntry_cons, getEntry_cons]
    by_cases hq : kv.1 = k
    · rw [if_pos hq, if_pos hq]
    · rw [if_neg hq, if_neg hq]
      exact ih

theorem getEntry_append_single_self (s : Store) (c : Int) (e : Entry)
    (hn : getEntry s c = none) : getEntry (s ++ [(c, e)]) c = some e := by
  induction s with
  | nil => rw [List.nil_append, getEntry_cons, if_pos rfl]
  | cons kv rest ih =>
    rw [getEntry_cons] at hn
    by_cases hc : kv.1 = c
    · rw [if_pos hc] at hn
      exact absurd hn (by simp)
    · rw [if_neg hc] at hn
      rw [List.cons_append, getEntry_cons, if_neg hc]
      exact ih hn

theorem getEntry_setEntry_self (s : Store) (c : Int) (e : Entry) :
    getEntry (setEntry s c e) c = some e := by
  unfold setEntry
  by_cases hh : hasEntry s c = true
  · rw [if_pos hh]
    exact getEntry_map_update_self s c e hh
  · rw [if_neg hh]
    refine getEntry_append_single_self s c e ?_
    rw [hasEntry_eq_isSome] at hh
    cases hg : getEntry s c with
    | none => rfl
    | some e0 => rw [hg] at hh; simp at hh

theorem getEntry_setEntry_ne (s : Store) (c k : Int) (e : Entry)
    (hk : k ≠ c) : getEntry (setEntry s c e) k = getEntry s k := by
  unfold setEntry
  by_cases hh : hasEntry s c = true
  · rw [if_pos hh]
    exact getEntry_map_update_ne s c k e hk
  · rw [if_neg hh]
    exact getEntry_append_single_ne s c k e hk

theorem getEntry_deleteEntry_ne (s : Store) (c k : Int) (hk : k ≠ c) :
    getEntry (deleteEntry s c) k = getEntry s k := by
  unfold deleteEntry
  induction s with
  | nil => rfl
  | cons kv rest ih =>
    rw [List.filter_cons, getEntry_cons]
    by_cases hc : kv.1 = c
    · rw [if_neg (by simp [hc]), if_neg (by rw [hc]; exact fun hx => hk hx.symm)]
      exact ih
    · rw [if_pos (by simp [hc]), getEntry_cons]
      by_cases hq : kv.1 = k
      · rw [if_pos hq, if_pos hq]
      · rw [if_neg hq, if_neg hq]
        exact ih

theorem mem_setEntry (s : Store) (c : Int) (e : Entry) (kv : Int × Entry)
    (h : kv ∈ setEntry s c e) : kv = (c, e) ∨ (kv ∈ s ∧ kv.1 ≠ c) := by
  unfold setEntry at h
  by_cases hh : hasEntry s c = true
  · rw [if_pos hh] at h
    rw [List.mem_map] at h
    obtain ⟨kv0, hm0, heq⟩ := h
    by_cases hc : kv0.1 = c
    · have h1 : (if (kv0.1 == c) = true then (c, e) else kv0) = (c, e) := by simp [hc]
      rw [h1] at heq
      exact Or.inl heq.symm
    · have h1 : (if (kv0.1 == c) = true then (c, e) else kv0) = kv0 := by simp [hc]
      rw [h1] at heq
      subst heq
      exact Or.inr ⟨hm0, hc⟩
  · rw [if_neg hh] at h
    rw [List.mem_append, List.mem_singleton] at h
    rcases h with h | h
    · refine Or.inr ⟨h, fun hc => ?_⟩
      apply hh
      unfold hasEntry
      rw [List.any_eq_true]
      exact ⟨kv, h, by simp [hc]⟩
    · exact Or.inl h

/-! Lemmas about the eviction sweep seen through `getEntry`. -/

theorem getEntry_purgeExpired_of_live (t : Int) (s : Store) (c : Int) (e : Entry)
    (h : getEntry s c = some e) (h1 : t < e.expiresAt) (h2 : e.used = false) :
    getEntry (purgeExpired t s) c = some e := by
  refine getEntry_filter_of_pred s c e _ h ?_
  simp only [h2]
  simp
  omega

theorem getEntry_purgeExpired_none (t : Int) (s : Store) (c : Int)
    (h : getEntry s c = none) : getEntry (purgeExpired t s) c = none :=
  getEntry_filter_none s c _ h

theorem getEntry_purgeExpired_of_dead (t : Int) (s : Store) (c : Int) (e : Entry)
    (hnd : keysNodup s) (h : getEntry s c = some e)
    (hd : e.expiresAt ≤ t ∨ e.used = true) :
    getEntry (purgeExpired t s) c = none := by
  refine getEntry_filter_of_not_pred s c e _ hnd h ?_
  rcases hd with hd | hd <;> simp [hd]

theorem issue_snd (s : Store) (c : Int) (d : JSDur) (t : Int) :
    (issue s c d t).2 =
      setEntry (purgeExpired t s) c ⟨t + cappedDuration d, false⟩ := rfl

/-- On a valid map state, the boolean `issue` returns is exactly liveness of
the prior entry at the call time. -/
theorem issue_fst_eq_liveB (s : Store) (c : Int) (d : JSDur) (t : Int)
    (hnd : keysNodup s) : (issue s c d t).1 = liveB s c t := by
  unfold liveB
  simp only [issue]
  cases hg : getEntry s c with
  | none => rw [getEntry_purgeExpired_none t s c hg]
  | some e =>
    by_cases h1 : t < e.expiresAt
    · by_cases h2 : e.used = true
      · rw [getEntry_purgeExpired_of_dead t s c e hnd hg (Or.inr h2)]
        simp [h2]
      · rw [Bool.not_eq_true] at h2
        rw [getEntry_purgeExpired_of_live t s c e hg h1 h2]
    · rw [getEntry_purgeExpired_of_dead t s c e hnd hg (Or.inl (by omega))]
      have hb : decide (t < e.expiresAt) = false := by simp; omega
      simp [hb]

/-- On a valid map state, the boolean `useOnce` returns is exactly liveness of
the entry at the call time. -/
theorem useOnce_fst_eq_liveB (s : Store) (c : Int) (t : Int)
    (hnd : keysNodup s) : (useOnce s c t).1 = liveB s c t := by
  unfold liveB
  simp only [useOnce]
  cases hg : getEntry s c with
  | none => rw [getEntry_purgeExpired_none t s c hg]
  | some e =>
    by_cases h1 : t < e.expiresAt
    · by_cases h2 : e.used = true
      · rw [getEntry_purgeExpired_of_dead t s c e hnd hg (Or.inr h2)]
        simp [h2]
      · rw [Bool.not_eq_true] at h2
        rw [getEntry_purgeExpired_of_live t s c e hg h1 h2]
        have hb : decide (e.expiresAt ≤ t) = false := by simp; omega
        have hb2 : decide (t < e.expiresAt) = true := by simp; omega
        simp [hb, hb2, h2]
    · rw [getEntry_purgeExpired_of_dead t s c e hnd hg (Or.inl (by omega))]
      have hb : decide (t < e.expiresAt) = false := by simp; omega
      simp [hb]

/-- Every entry surviving the sweep is live, so the documented existence test
of `issue` agrees with the compact `store.has` test on the swept store. -/
theorem issue_fst_eq_hasEntry (s : Store) (c : Int) (d : JSDur) (t : Int) :
    (issue s c d t).1 = hasEntry (purgeExpired t s) c := by
  simp only [issue]
  rw [hasEntry_eq_isSome]
  cases hg : getEntry (purgeExpired t s) c with
  | none => simp
  | some e =>
    obtain ⟨h1, h2⟩ := getEntry_purgeExpired_live t s c e hg
    have hb : decide (t < e.expiresAt) = true := by simp; omega
    simp [hb, h2]

/-- What `useOnce` does, by cases: either the code is absent after the sweep
and the call rejects leaving the swept store, or the swept entry is live (the
sweep leaves only live entries, so the explicit expired-or-used rejection
branch of the source is unreachable under one per-call clock), the call
accepts, and the trailing sweep runs on the store holding the consumed entry. -/
theorem useOnce_cases (s : Store) (c : Int) (t : Int) :
    (getEntry (purgeExpired t s) c = none ∧
      useOnce s c t = (false, purgeExpired t s)) ∨
    (∃ e, getEntry (purgeExpired t s) c = some e ∧
      t < e.expiresAt ∧ e.used = false ∧
      useOnce s c t =
        (true, purgeExpired t
          (setEntry (purgeExpired t s) c ⟨e.expiresAt, true⟩))) := by
  cases hg : getEntry (purgeExpired t s) c with
  | none =>
    left
    refine ⟨rfl, ?_⟩
    simp only [useOnce]
    rw [hg]
  | some e =>
    right
    obtain ⟨h1, h2⟩ := getEntry_purgeExpired_live t s c e hg
    refine ⟨e, rfl, h1, h2, ?_⟩
    have hb : (decide (e.expiresAt ≤ t) || e.used) = false := by
      simp [h2]; omega
    simp only [useOnce]
    rw [hg]
    simp [hb]

theorem getEntry_useOnce_true_absent (s : Store) (c : Int) (t : Int)
    (h : (useOnce s c t).1 = true) : getEntry (useOnce s c t).2 c = none := by
  rcases useOnce_cases s c t with ⟨hg, heq⟩ | ⟨e, hg, h1, h2, heq⟩
  · rw [heq] at h
    exact absurd h (by simp)
  · rw [heq]
    cases hg2 : getEntry (useOnce s c t).2 c with
    | none => rw [heq] at hg2; exact hg2
    | some e2 =>
      rw [heq] at hg2
      have hm := mem_of_getEntry_eq_some _ _ _ hg2
      rw [mem_purgeExpired] at hm
      rcases mem_setEntry _ _ _ _ hm.1 with hkv | ⟨_, hne⟩
      · rw [hkv] at hm
        simp at hm
      · exact absurd rfl hne

theorem getEntry_purgeExpired_none_preserved (t : Int) (s : Store) (c : Int)
    (h : getEntry s c = none) : getEntry (purgeExpired t s) c = none :=
  getEntry_purgeExpired_none t s c h

/-- No call other than `issue(c, _)` creates an entry for `c`. -/
theorem getEntry_step_none_preserved (s : Store) (c : Int) (op : Op)
    (hop : noIssueOf c op = true) (h : getEntry s c = none) :
    getEntry (step s op).2 c = none := by
  cases op with
  | issueOp k d t =>
    have hk : ¬(k = c) := by
      unfold noIssueOf at hop
      simpa using hop
    rw [step, issue_snd]
    rw [getEntry_setEntry_ne _ _ _ _ (fun hx => hk hx.symm)]
    exact getEntry_purgeExpired_none t s c h
  | useOp k t =>
    by_cases hk : k = c
    · subst hk
      rcases useOnce_cases s k t with ⟨hg, heq⟩ | ⟨e, hg, h1, h2, heq⟩
      · rw [step, heq]
        exact getEntry_purgeExpired_none t s k h
      · rw [getEntry_purgeExpired_none t s k h] at hg
        exact absurd hg (by simp)
    · rcases useOnce_cases s k t with ⟨hg, heq⟩ | ⟨e, hg, h1, h2, heq⟩
      · rw [step, heq]
        exact getEntry_purgeExpired_none t s c h
      · rw [step, heq]
        refine getEntry_purgeExpired_none t _ c ?_
        rw [getEntry_setEntry_ne _ _ _ _ (fun hx : c = k => hk hx.symm)]
        exact getEntry_purgeExpired_none t s c h

/-- A `useOnce(c)` on a store without an entry for `c` rejects. -/
theorem useOnce_fst_of_absent (s : Store) (c : Int) (t : Int)
    (h : getEntry s c = none) : (useOnce s c t).1 = false := by
  rcases useOnce_cases s c t with ⟨hg, heq⟩ | ⟨e, hg, h1, h2, heq⟩
  · rw [heq]
  · rw [getEntry_purgeExpired_none t s c h] at hg
    exact absurd hg (by simp)

theorem countUseOnceTrue_cons (s : Store) (c : Int) (op : Op) (ops : List Op) :
    countUseOnceTrue s c (op :: ops) =
      (match op with
       | .useOp k _ => if k == c && (step s op).1 then 1 else 0
       | .issueOp _ _ _ => 0) + countUseOnceTrue (step s op).2 c ops := rfl

theorem countUseOnceTrue_eq_zero_of_absent (c : Int) (ops : List Op) :
    ∀ s : Store, getEntry s c = none → ops.all (noIssueOf c) = true →
      countUseOnceTrue s c ops = 0 := by
  induction ops with
  | nil => intro s _ _; rfl
  | cons op rest ih =>
    intro s hab hall
    rw [List.all_cons, Bool.and_eq_true] at hall
    rw [countUseOnceTrue_cons,
      ih _ (getEntry_step_none_preserved s c op hall.1 hab) hall.2]
    cases op with
    | issueOp k d t => simp
    | useOp k t =>
      by_cases hk : k = c
      · subst hk
        have hf : (step s (Op.useOp k t)).1 = false := useOnce_fst_of_absent s k t hab
        simp [hf]
      · simp [hk]

theorem countUseOnceTrue_le_one (c : Int) (ops : List Op) :
    ∀ s : Store, ops.all (noIssueOf c) = true → countUseOnceTrue s c ops ≤ 1 := by
  induction ops with
  | nil => intro s _; exact Nat.zero_le 1
  | cons op rest ih =>
    intro s hall
    rw [List.all_cons, Bool.and_eq_true] at hall
    rw [countUseOnceTrue_cons]
    cases op with
    | issueOp k d t =>
      simpa using ih _ hall.2
    | useOp k t =>
      show (if (k == c && (step s (Op.useOp k t)).1) = true then (1 : Nat) else 0) +
        countUseOnceTrue (step s (Op.useOp k t)).2 c rest ≤ 1
      by_cases hk : (k == c && (step s (Op.useOp k t)).1) = true
      · rw [if_pos hk]
        rw [Bool.and_eq_true, beq_iff_eq] at hk
        obtain ⟨hkc, htrue⟩ := hk
        subst hkc
        have habs : getEntry (step s (Op.useOp k t)).2 k = none :=
          getEntry_useOnce_true_absent s k t htrue
        rw [countUseOnceTrue_eq_zero_of_absent k rest _ habs hall.2]
      · rw [if_neg hk]
        simpa using ih _ hall.2

/-- A `useOnce(c)` finding a live entry accepts. -/
theorem useOnce_fst_of_live (s : Store) (c : Int) (t : Int) (e : Entry)
    (h : getEntry s c = some e) (h1 : t < e.expiresAt) (h2 : e.used = false) :
    (useOnce s c t).1 = true := by
  rcases useOnce_cases s c t with ⟨hg, heq⟩ | ⟨e2, hg, hl1, hl2, heq⟩
  · rw [getEntry_purgeExpired_of_live t s c e h h1 h2] at hg
    exact absurd hg (by simp)
  · rw [heq]

theorem allLiveEntries_purgeExpired (t : Int) (s : Store) :
    allLiveEntries t (purgeExpired t s) = true := by
  unfold allLiveEntries
  rw [List.all_eq_true]
  intro kv hm
  rw [mem_purgeExpired] at hm
  obtain ⟨_, h1, h2⟩ := hm
  simp [h1, h2]

theorem allLiveEntries_useOnce (s : Store) (c : Int) (t : Int) :
    allLiveEntries t (useOnce s c t).2 = true := by
  rcases useOnce_cases s c t with ⟨hg, heq⟩ | ⟨e, hg, h1, h2, heq⟩
  · rw [heq]
    exact allLiveEntries_purgeExpired t _
  · rw [heq]
    exact allLiveEntries_purgeExpired t _

theorem noUsedEntries_issue (s : Store) (c : Int) (d : JSDur) (t : Int) :
    noUsedEntries (issue s c d t).2 = true := by
  unfold noUsedEntries
  rw [issue_snd, List.all_eq_true]
  intro kv hm
  rcases mem_setEntry _ _ _ _ hm with hkv | ⟨hm2, _⟩
  · rw [hkv]
    rfl
  · rw [mem_purgeExpired] at hm2
    simp [hm2.2.2]

theorem allLiveEntries_issue_of_pos (s : Store) (c : Int) (d : JSDur) (t : Int)
    (h : 0 < cappedDuration d) : allLiveEntries t (issue s c d t).2 = true := by
  unfold allLiveEntries
  rw [issue_snd, List.all_eq_true]
  intro kv hm
  rcases mem_setEntry _ _ _ _ hm with hkv | ⟨hm2, _⟩
  · rw [hkv]
    simp
    omega
  · rw [mem_purgeExpired] at hm2
    simp [hm2.2.1, hm2.2.2]

theorem issue_entries_live_except_written (s : Store) (c : Int) (d : JSDur)
    (t : Int) :
    ((issue s c d t).2.all
      (fun kv => kv.1 == c || (decide (t < kv.2.expiresAt) && !kv.2.used))) = true := by
  rw [issue_snd, List.all_eq_true]
  intro kv hm
  rcases mem_setEntry _ _ _ _ hm with hkv | ⟨hm2, _⟩
  · rw [hkv]
    simp
  · rw [mem_purgeExpired] at hm2
    simp [hm2.2.1, hm2.2.2]

/-! The claims. -/

/-- C1.  At-most-once redemption: from any store state, along any sequence of
calls containing no `issue(c, _)`, at most one `useOnce(c)` returns `true`;
and once a `useOnce(c)` call has returned `true`, every `useOnce(c)` in any
following `issue(c, _)`-free call sequence returns `false` (none of them
counts a `true`). -/
theorem at_most_once_redemption (s : Store) (c : Int) (t : Int) (ops : List Op)
    (hops : ops.all (noIssueOf c) = true) :
    countUseOnceTrue s c ops ≤ 1 ∧
    ((useOnce s c t).1 = true → countUseOnceTrue (useOnce s c t).2 c ops = 0) := by
  refine ⟨countUseOnceTrue_le_one c ops s hops, fun h => ?_⟩
  exact countUseOnceTrue_eq_zero_of_absent c ops _
    (getEntry_useOnce_true_absent s c t h) hops

/-- Witness for C1: a store holding a live code 5, then two `useOnce(5)`
calls; the count of accepted calls is at most one, and after an accepted
`useOnce(5)` the following ones accept zero times. -/
theorem at_most_once_redemption_witness :
    ([Op.useOp 5 0, Op.useOp 5 1].all (noIssueOf 5) = true) ∧
    countUseOnceTrue [(5, ⟨10, false⟩)] 5 [Op.useOp 5 0, Op.useOp 5 1] ≤ 1 ∧
    ((useOnce [(5, ⟨10, false⟩)] 5 0).1 = true →
      countUseOnceTrue (useOnce [(5, ⟨10, false⟩)] 5 0).2 5
        [Op.useOp 5 0, Op.useOp 5 1] = 0) :=
  ⟨by decide,
    at_most_once_redemption [(5, ⟨10, false⟩)] 5 0 [Op.useOp 5 0, Op.useOp 5 1]
      (by decide)⟩

/-- C3.  `useOnce` accepts exactly the live codes: on any valid map state it
returns `true` iff the entry for `c` is present, has `expiresAt` strictly
above the call time, and is unconsumed; in particular it returns `false` on
the empty store (and a plain boolean `false` is all a rejected caller sees,
whatever the cause). -/
theorem useOnce_rejects_iff_not_live (s : Store) (c : Int) (t : Int)
    (hnd : keysNodup s) :
    ((useOnce s c t).1 = true ↔ liveB s c t = true) ∧
    (useOnce [] c t).1 = false := by
  constructor
  · rw [useOnce_fst_eq_liveB s c t hnd]
  · rfl

/-- Witness for C3: a store with one live and calls on present/absent codes. -/
theorem useOnce_rejects_iff_not_live_witness :
    keysNodup [((5 : Int), Entry.mk 10 false)] ∧
    (((useOnce [((5 : Int), Entry.mk 10 false)] 5 0).1 = true ↔
        liveB [((5 : Int), Entry.mk 10 false)] 5 0 = true) ∧
      (useOnce [] 5 0).1 = false) :=
  ⟨by decide, useOnce_rejects_iff_not_live [((5 : Int), Entry.mk 10 false)] 5 0
    (by decide)⟩

/-- C7.  The eviction sweep at a fixed time equals filtering the store to the
entries with `expiresAt` strictly above `now` and `consumed = false`; it is
idempotent, and a permutation of the entries (any visiting order) yields a
permutation of the same resulting entry set. -/
theorem purgeExpired_idempotent_order_independent (t : Int) (s s2 : Store)
    (hp : s.Perm s2) :
    purgeExpired t s =
      s.filter (fun kv => decide (t < kv.2.expiresAt) && !kv.2.used) ∧
    purgeExpired t (purgeExpired t s) = purgeExpired t s ∧
    (purgeExpired t s).Perm (purgeExpired t s2) := by
  refine ⟨?_, ?_, ?_⟩
  · unfold purgeExpired
    refine List.filter_congr ?_
    intro kv _
    by_cases hu : kv.2.used <;> by_cases hx : kv.2.expiresAt ≤ t <;>
      (simp [hu, hx]; try omega)
  · unfold purgeExpired
    rw [List.filter_filter]
    refine List.filter_congr ?_
    intro kv _
    rw [Bool.and_self]
  · exact hp.filter _

/-- Witness for C7: two orderings of one concrete two-entry store. -/
theorem purgeExpired_idempotent_order_independent_witness :
    ([((5 : Int), Entry.mk 10 false), (6, Entry.mk 0 false)]).Perm
      [(6, Entry.mk 0 false), ((5 : Int), Entry.mk 10 false)] ∧
    (purgeExpired 3 [((5 : Int), Entry.mk 10 false), (6, Entry.mk 0 false)] =
        ([((5 : Int), Entry.mk 10 false), (6, Entry.mk 0 false)]).filter
          (fun kv => decide ((3 : Int) < kv.2.expiresAt) && !kv.2.used) ∧
      purgeExpired 3
          (purgeExpired 3 [((5 : Int), Entry.mk 10 false), (6, Entry.mk 0 false)]) =
        purgeExpired 3 [((5 : Int), Entry.mk 10 false), (6, Entry.mk 0 false)] ∧
      (purgeExpired 3 [((5 : Int), Entry.mk 10 false), (6, Entry.mk 0 false)]).Perm
        (purgeExpired 3 [(6, Entry.mk 0 false), ((5 : Int), Entry.mk 10 false)])) :=
  ⟨List.Perm.swap _ _ _,
    purgeExpired_idempotent_order_independent 3
      [((5 : Int), Entry.mk 10 false), (6, Entry.mk 0 false)]
      [(6, Entry.mk 0 false), ((5 : Int), Entry.mk 10 false)]
      (List.Perm.swap _ _ _)⟩

theorem noUsedEntries_purgeExpired (t : Int) (s : Store) :
    noUsedEntries (purgeExpired t s) = true := by
  unfold noUsedEntries
  rw [List.all_eq_true]
  intro kv hm
  rw [mem_purgeExpired] at hm
  simp [hm.2.2]

/-- C2 counterexample: with the entry for code 5 consumed, `issue(5, 600000)`
returns `false` as the claim says, but a `useOnce(5)` 400000 ms later — well
within the requested duration `d` — returns `false`, because the duration was
capped at 300000 ms; so "a following useOnce(c) within d returns true" fails. -/
theorem issue_return_contract_counterexample :
    consumedB [((5 : Int), Entry.mk 100 true)] 5 = true ∧
    (issue [((5 : Int), Entry.mk 100 true)] 5 (.num 600000) 0).1 = false ∧
    (0 : Int) ≤ 400000 ∧ (400000 : Int) < 600000 ∧
    (useOnce (issue [((5 : Int), Entry.mk 100 true)] 5 (.num 600000) 0).2
      5 400000).1 = false := by
  decide

/-- C2 (amended).  `issue(c, d)` returns `true` iff a live entry for `c`
existed at the call time; in particular if `c`'s entry was consumed it
returns `false`, and a following `useOnce(c)` strictly before the capped
expiry `t + cappedDuration d` (rather than within the requested `d`) returns
`true`: the refresh resets consumption. -/
theorem issue_return_contract_amended (s : Store) (c : Int) (d : JSDur)
    (t t2 : Int) (hnd : keysNodup s) :
    ((issue s c d t).1 = true ↔ liveB s c t = true) ∧
    (consumedB s c = true →
      (issue s c d t).1 = false ∧
      (t2 < t + cappedDuration d → (useOnce (issue s c d t).2 c t2).1 = true)) := by
  have hfst := issue_fst_eq_liveB s c d t hnd
  refine ⟨by rw [hfst], fun hcons => ⟨?_, fun ht => ?_⟩⟩
  · rw [hfst]
    unfold consumedB at hcons
    unfold liveB
    cases hg : getEntry s c with
    | none => rfl
    | some e =>
      rw [hg] at hcons
      have hused : e.used = true := hcons
      simp [hused]
  · refine useOnce_fst_of_live _ _ _ ⟨t + cappedDuration d, false⟩ ?_ ht rfl
    rw [issue_snd]
    exact getEntry_setEntry_self _ _ _

/-- Witness for C2's amended theorem: a consumed entry for code 5, refreshed
by `issue(5, 600000)` at time 0 and redeemed at time 0. -/
theorem issue_return_contract_amended_witness :
    keysNodup [((5 : Int), Entry.mk 100 true)] ∧
    consumedB [((5 : Int), Entry.mk 100 true)] 5 = true ∧
    (0 : Int) < 0 + cappedDuration (.num 600000) ∧
    (issue [((5 : Int), Entry.mk 100 true)] 5 (.num 600000) 0).1 = false ∧
    (useOnce (issue [((5 : Int), Entry.mk 100 true)] 5 (.num 600000) 0).2
      5 0).1 = true :=
  ⟨by decide, by decide, by decide,
    ((issue_return_contract_amended [((5 : Int), Entry.mk 100 true)] 5
      (.num 600000) 0 0 (by decide)).2 (by decide)).1,
    ((issue_return_contract_amended [((5 : Int), Entry.mk 100 true)] 5
      (.num 600000) 0 0 (by decide)).2 (by decide)).2 (by decide)⟩

/-- C4 counterexample: a negative duration is truthy in JS, so
`Number(-5) || 0` keeps `-5`, `Math.min` keeps it below the cap, and the
stored `expiresAt` lands strictly before the current time — the effective
duration is not in `[0, MAX_DURATION]` and `expiresAt < now`. -/
theorem duration_clamping_counterexample :
    cappedDuration (.num (-5)) = -5 ∧ cappedDuration (.num (-5)) < 0 ∧
    getEntry (issue [] 7 (.num (-5)) 0).2 7 = some (Entry.mk (-5) false) ∧
    (Entry.mk (-5) false).expiresAt < 0 := by
  decide

/-- C4 (amended).  The effective duration never exceeds `MAX_DURATION`;
non-numeric, `NaN` or missing durations become 0; a non-negative numeric
duration yields an effective duration in `[0, MAX_DURATION]` (so `expiresAt`
is at least the current time); but a negative numeric duration passes through
unclamped, so the stored `expiresAt` can precede the current time. -/
theorem duration_clamping_amended (d : JSDur) (q : Int) :
    cappedDuration d ≤ MAX_MS ∧
    cappedDuration .nan = 0 ∧
    (d = .num q → 0 ≤ q →
      cappedDuration d = min q MAX_MS ∧ 0 ≤ cappedDuration d) ∧
    (d = .num q → q < 0 → cappedDuration d = q) := by
  refine ⟨min_le_right _ _, rfl, ?_, ?_⟩
  · rintro rfl h
    refine ⟨rfl, ?_⟩
    simp only [cappedDuration, numberOrZero, MAX_MS]
    omega
  · rintro rfl h
    simp only [cappedDuration, numberOrZero, MAX_MS]
    omega

/-- Witness for C4's amended theorem: durations 7 (kept, non-negative) and
-5 (kept negative, below zero). -/
theorem duration_clamping_amended_witness :
    ((0 : Int) ≤ 7 ∧ cappedDuration (.num 7) = min 7 MAX_MS ∧
      0 ≤ cappedDuration (.num 7)) ∧
    ((-5 : Int) < 0 ∧ cappedDuration (.num (-5)) = -5) :=
  ⟨⟨by decide, (duration_clamping_amended (.num 7) 7).2.2.1 rfl (by decide)⟩,
    ⟨by decide, (duration_clamping_amended (.num (-5)) (-5)).2.2.2 rfl (by decide)⟩⟩

/-- C5 counterexample: `issue(7, 0)` at time 0 leaves the store holding the
entry `(7, { expiresAt := 0, used := false })`, which is expired at the
operation's own time (`now >= expiresAt`), so the operation does not leave a
store containing only live entries. -/
theorem store_only_live_counterexample :
    (issue [] 7 (.num 0) 0).2 = [((7 : Int), Entry.mk 0 false)] ∧
    liveB (issue [] 7 (.num 0) 0).2 7 0 = false ∧
    allLiveEntries 0 (issue [] 7 (.num 0) 0).2 = false := by
  decide

/-- C5 (amended).  After `useOnce` every remaining entry is live; after
`issue` every remaining entry is unconsumed and every entry other than the
just-written one is live, and when the capped duration is positive the
written entry is live too — an `issue` whose effective duration is not
positive leaves its own entry already expired. -/
theorem store_only_live_amended (s : Store) (c : Int) (d : JSDur) (t : Int) :
    allLiveEntries t (useOnce s c t).2 = true ∧
    noUsedEntries (issue s c d t).2 = true ∧
    ((issue s c d t).2.all
      (fun kv => kv.1 == c || (decide (t < kv.2.expiresAt) && !kv.2.used))) = true ∧
    (0 < cappedDuration d → allLiveEntries t (issue s c d t).2 = true) :=
  ⟨allLiveEntries_useOnce s c t, noUsedEntries_issue s c d t,
    issue_entries_live_except_written s c d t,
    fun h => allLiveEntries_issue_of_pos s c d t h⟩

/-- Witness for C5's amended theorem: `issue(7, 30000)` at time 0 leaves only
live entries. -/
theorem store_only_live_amended_witness :
    (0 : Int) < cappedDuration (.num 30000) ∧
    allLiveEntries 0 (issue [] 7 (.num 30000) 0).2 = true :=
  ⟨by decide, (store_only_live_amended [] 7 (.num 30000) 0).2.2.2 (by decide)⟩

/-- C6.  `MAX_MS` is 300000 ms; the entry `issue` stores always has
`expiresAt ≤ now + 300000`; `issue(c, 600000)` followed by `useOnce(c)` once
the 5-minute cap has elapsed (but before the requested 10 minutes) rejects;
and `issue`'s boolean does not depend on the requested duration, so capping
is not observable in the return value. -/
theorem five_minute_cap (s : Store) (c : Int) (d d2 : JSDur) (t t2 : Int)
    (h1 : t + 300000 ≤ t2) (h2 : t2 < t + 600000) :
    MAX_MS = 300000 ∧
    (∃ e, getEntry (issue s c d t).2 c = some e ∧ e.expiresAt ≤ t + 300000) ∧
    (useOnce (issue s c (.num 600000) t).2 c t2).1 = false ∧
    (issue s c d t).1 = (issue s c d2 t).1 := by
  refine ⟨rfl, ?_, ?_, ?_⟩
  · refine ⟨⟨t + cappedDuration d, false⟩, ?_, ?_⟩
    · rw [issue_snd]
      exact getEntry_setEntry_self _ _ _
    · show t + cappedDuration d ≤ t + 300000
      have hm : cappedDuration d ≤ 300000 := min_le_right _ _
      omega
  · have hcap : cappedDuration (.num 600000) = 300000 := by decide
    rcases useOnce_cases (issue s c (.num 600000) t).2 c t2 with
      ⟨hg, heq⟩ | ⟨e, hg, hl1, hl2, heq⟩
    · rw [heq]
    · exfalso
      have hm := mem_of_getEntry_eq_some _ _ _ hg
      rw [mem_purgeExpired] at hm
      have hm2 := hm.1
      rw [issue_snd] at hm2
      rcases mem_setEntry _ _ _ _ hm2 with hkv | ⟨_, hne⟩
      · have hexp : e.expiresAt = t + 300000 := by
          have := congrArg (fun kv => (Prod.snd kv).expiresAt) hkv
          simpa [hcap] using this
        omega
      · exact hne rfl
  · rw [issue_fst_eq_hasEntry s c d t, issue_fst_eq_hasEntry s c d2 t]

/-- Witness for C6: the concrete scenario at `t = 0`, redeeming at 400000 ms. -/
theorem five_minute_cap_witness :
    ((0 : Int) + 300000 ≤ 400000 ∧ (400000 : Int) < 0 + 600000) ∧
    (useOnce (issue [] 123456 (.num 600000) 0).2 123456 400000).1 = false :=
  ⟨⟨by decide, by decide⟩,
    (five_minute_cap [] 123456 (.num 600000) (.num 600000) 0 400000
      (by decide) (by decide)).2.2.1⟩

/-- C8.  Frame property: a code `k ≠ c` with a live entry keeps exactly that
entry (same `expiresAt`, same consumed flag) across `issue(c, _)` and
`useOnce(c)`; contrapositively, the only entries besides `c`'s that an
operation removes are expired or consumed ones. -/
theorem frame_property (s : Store) (c k : Int) (d : JSDur) (t : Int)
    (e : Entry) (hk : k ≠ c) (hget : getEntry s k = some e) :
    (t < e.expiresAt → e.used = false →
      getEntry (issue s c d t).2 k = some e ∧
      getEntry (useOnce s c t).2 k = some e) ∧
    ((getEntry (issue s c d t).2 k = none ∨
        getEntry (useOnce s c t).2 k = none) →
      e.expiresAt ≤ t ∨ e.used = true) := by
  have hmain : t < e.expiresAt → e.used = false →
      getEntry (issue s c d t).2 k = some e ∧
      getEntry (useOnce s c t).2 k = some e := by
    intro h1 h2
    have hs1 : getEntry (purgeExpired t s) k = some e :=
      getEntry_purgeExpired_of_live t s k e hget h1 h2
    constructor
    · rw [issue_snd, getEntry_setEntry_ne _ _ _ _ hk]
      exact hs1
    · rcases useOnce_cases s c t with ⟨hg, heq⟩ | ⟨e2, hg, hl1, hl2, heq⟩
      · rw [heq]
        exact hs1
      · rw [heq]
        refine getEntry_purgeExpired_of_live _ _ _ _ ?_ h1 h2
        rw [getEntry_setEntry_ne _ _ _ _ hk]
        exact hs1
  refine ⟨hmain, fun habs => ?_⟩
  by_cases h1 : t < e.expiresAt
  · by_cases h2 : e.used = true
    · exact Or.inr h2
    · rw [Bool.not_eq_true] at h2
      obtain ⟨ha, hb⟩ := hmain h1 h2
      rcases habs with habs | habs
      · rw [habs] at ha
        exact absurd ha (by simp)
      · rw [habs] at hb
        exact absurd hb (by simp)
  · exact Or.inl (by omega)

/-- Witness for C8: codes 9 (live bystander) and 5 under `issue(5, 30000)`
and `useOnce(5)` at time 0. -/
theorem frame_property_witness :
    ((9 : Int) ≠ 5 ∧ getEntry [((9 : Int), Entry.mk 10 false)] 9 =
      some (Entry.mk 10 false)) ∧
    ((0 : Int) < (Entry.mk 10 false).expiresAt ∧ (Entry.mk 10 false).used = false) ∧
    (getEntry (issue [((9 : Int), Entry.mk 10 false)] 5 (.num 30000) 0).2 9 =
        some (Entry.mk 10 false) ∧
      getEntry (useOnce [((9 : Int), Entry.mk 10 false)] 5 0).2 9 =
        some (Entry.mk 10 false)) :=
  ⟨⟨by decide, by decide⟩, ⟨by decide, by decide⟩,
    (frame_property [((9 : Int), Entry.mk 10 false)] 5 9 (.num 30000) 0
      (Entry.mk 10 false) (by decide) (by decide)).1 (by decide) (by decide)⟩

theorem issue_eq_issueCompact (s : Store) (c : Int) (d : JSDur) (t : Int) :
    issue s c d t = issueCompact s c d t := by
  have h1 : (issue s c d t).1 = (issueCompact s c d t).1 :=
    issue_fst_eq_hasEntry s c d t
  have h2 : (issue s c d t).2 = (issueCompact s c d t).2 := rfl
  exact Prod.ext_iff.mpr ⟨h1, h2⟩

theorem step_eq_stepCompact (s : Store) (op : Op) :
    step s op = stepCompact s op := by
  cases op with
  | issueOp c d t => exact issue_eq_issueCompact s c d t
  | useOp c t => rfl

theorem run_eq_runCompact (ops : List Op) :
    ∀ s : Store, run s ops = runCompact s ops := by
  induction ops with
  | nil => intro s; rfl
  | cons op rest ih =>
    intro s
    simp only [run, runCompact]
    rw [step_eq_stepCompact, ih]

/-- C9.  Refinement equivalence of the two store versions in the file: for
every starting store and every sequence of calls (each evaluated at a single
per-call time), the documented implementation and the compact one return the
same booleans and end in the same store; pointwise, `issue` coincides with
the compact `issue` (whose existence test is just `store.has` after the
sweep) and `useOnce` with the compact `useOnce`. -/
theorem store_versions_equivalent (s : Store) (ops : List Op) (c : Int)
    (d : JSDur) (t : Int) :
    run s ops = runCompact s ops ∧
    issue s c d t = issueCompact s c d t ∧
    useOnce s c t = useOnceCompact s c t :=
  ⟨run_eq_runCompact ops s, issue_eq_issueCompact s c d t, rfl⟩

/-- C10.  No consumed entry at rest: the initial store has no consumed entry,
and after any `issue` or `useOnce` call from any state no remaining entry has
its consumed flag set; moreover any entry found for any code after the
initial sweep is unconsumed, so under a single per-call clock the
`entry.used` disjunct of `useOnce`'s rejection test can never be the reason
a swept-store entry is rejected. -/
theorem no_consumed_entry_at_rest (s : Store) (c : Int) (d : JSDur) (t : Int) :
    noUsedEntries ([] : Store) = true ∧
    noUsedEntries (issue s c d t).2 = true ∧
    noUsedEntries (useOnce s c t).2 = true ∧
    (match getEntry (purgeExpired t s) c with
     | some e => !e.used
     | none => true) = true := by
  refine ⟨rfl, noUsedEntries_issue s c d t, ?_, ?_⟩
  · rcases useOnce_cases s c t with ⟨hg, heq⟩ | ⟨e, hg, h1, h2, heq⟩
    · rw [heq]
      exact noUsedEntries_purgeExpired t s
    · rw [heq]
      exact noUsedEntries_purgeExpired t _
  · cases hg : getEntry (purgeExpired t s) c with
    | none => rfl
    | some e =>
      have h2 := (getEntry_purgeExpired_live t s c e hg).2
      simp [h2]

end OtpStore
